import Mathlib

/-!
Verification development for the eval-runner core of `playwright-mcp-evals`.

The TypeScript sources are shallowly embedded:
* JavaScript runtime values are modelled by `JSVal` together with an explicit
  heap (`Heap`) of arrays and objects, so that reference cycles — which a pure
  inductive tree cannot represent — are expressible; `JSON.stringify` is
  modelled as a fallible, fueled traversal that fails exactly when it meets an
  address already on its recursion stack (the `TypeError` thrown by engines on
  circular structures).  A fuel of `h.length + 1` is enough for every acyclic
  structure (proved below).
* Asynchronous functions are modelled as `Except Thrown _`: a rejected
  promise / thrown exception is the `.error` case.  Wall-clock timing
  (`durationMs`) is environmental and carried by no claim, so it is omitted
  from the embedded result records.
-/

/-- A JavaScript value: primitives are immediate, arrays and objects live in
the heap and are referred to by address. -/
inductive JSVal where
  | vnull
  | vundefined
  | vbool (b : Bool)
  | vnum (n : Int)
  | vstr (s : String)
  | vref (addr : Nat)
deriving DecidableEq, Repr

/-- A heap cell: an array of values or an object given as an ordered field
list (JavaScript objects have unique keys; lookup takes the first match). -/
inductive HeapObj where
  | harr (elems : List JSVal)
  | hobj (fields : List (String × JSVal))
deriving DecidableEq, Repr

/-- The heap: cell at address `a` is `h.get? a`. -/
abbrev Heap := List HeapObj

/-- First-match association lookup on an object's field list. -/
def lookupField : List (String × JSVal) → String → Option JSVal
  | [], _ => none
  | kv :: rest, key => if kv.1 = key then some kv.2 else lookupField rest key

/-- JavaScript `v == null`, true exactly for `null` and `undefined`. -/
def JSVal.isNullish : JSVal → Bool
  | .vnull => true
  | .vundefined => true
  | _ => false

/-- Property read `v.key`: `undefined` on primitives, arrays (no string keys
are stored in our array cells) and missing fields. -/
def getField (h : Heap) (v : JSVal) (key : String) : JSVal :=
  match v with
  | .vref a =>
    match h.get? a with
    | some (.hobj fs) => (lookupField fs key).getD .vundefined
    | _ => .vundefined
  | _ => .vundefined

/-- The JavaScript `key in v` test. -/
def hasField (h : Heap) (v : JSVal) (key : String) : Bool :=
  match v with
  | .vref a =>
    match h.get? a with
    | some (.hobj fs) => (lookupField fs key).isSome
    | _ => false
  | _ => false

/-- `Array.isArray(v)`: the element list when `v` references an array cell. -/
def asArray (h : Heap) (v : JSVal) : Option (List JSVal) :=
  match v with
  | .vref a =>
    match h.get? a with
    | some (.harr es) => some es
    | _ => none
  | _ => none

/-- JSON string escaping for the characters relevant to this development. -/
def jsonEscapeChar (c : Char) : String :=
  if c = '"' then "\\\""
  else if c = '\\' then "\\\\"
  else if c = '\n' then "\\n"
  else if c = '\t' then "\\t"
  else if c = '\r' then "\\r"
  else String.singleton c

/-- A JSON string literal, `JSON.stringify` on a string. -/
def jsonQuote (s : String) : String :=
  "\"" ++ String.join (s.toList.map jsonEscapeChar) ++ "\""

/-- Fuel-zero base case of the `JSON.stringify` traversal: primitives
serialize, a reference means the fuel ran out (unreachable at the fuel used
by `jsonStringify`, see `stringifyVal_ok_of_forward`). -/
def stringifyBase : List Nat → JSVal → Except Unit (Option String)
  | _, .vnull => .ok (some "null")
  | _, .vundefined => .ok none
  | _, .vbool b => .ok (some (cond b "true" "false"))
  | _, .vnum n => .ok (some (toString n))
  | _, .vstr s => .ok (some (jsonQuote s))
  | _, .vref _ => .error ()

/-- One step of the `JSON.stringify` traversal.  `visited` is the recursion
stack of object addresses: meeting one again is the circular-structure
`TypeError` (`.error`).  `.ok none` is JavaScript returning `undefined`
(an `undefined` at the top level); inside arrays it prints as `null`, inside
objects the field is omitted — exactly the `JSON.stringify` rules. -/
def stringifyStep (h : Heap) (ih : List Nat → JSVal → Except Unit (Option String))
    (visited : List Nat) (v : JSVal) : Except Unit (Option String) :=
  match v with
  | .vnull => .ok (some "null")
  | .vundefined => .ok none
  | .vbool b => .ok (some (cond b "true" "false"))
  | .vnum n => .ok (some (toString n))
  | .vstr s => .ok (some (jsonQuote s))
  | .vref a =>
    if a ∈ visited then .error ()
    else
      match h.get? a with
      | none => .ok (some "null")
      | some (.harr es) =>
        (es.mapM (fun e => ih (a :: visited) e)).map (fun parts =>
          some ("[" ++ String.intercalate "," (parts.map (fun p => p.getD "null")) ++ "]"))
      | some (.hobj fs) =>
        (fs.mapM (fun kv => (ih (a :: visited) kv.2).map (fun r =>
            r.map (fun s => jsonQuote kv.1 ++ ":" ++ s)))).map (fun parts =>
          some ("\x7b" ++ String.intercalate "," (parts.filterMap id) ++ "\x7d"))

/-- The fueled `JSON.stringify` traversal. -/
def stringifyVal (h : Heap) (fuel : Nat) : List Nat → JSVal → Except Unit (Option String) :=
  @Nat.rec (fun _ => List Nat → JSVal → Except Unit (Option String))
    stringifyBase (fun _ ih => stringifyStep h ih) fuel

theorem stringifyVal_zero (h : Heap) : stringifyVal h 0 = stringifyBase := rfl

theorem stringifyVal_succ (h : Heap) (fuel : Nat) :
    stringifyVal h (fuel + 1) = stringifyStep h (stringifyVal h fuel) := rfl

/-- `JSON.stringify(v)`.  `none` is the thrown circular-structure error. -/
def jsonStringify (h : Heap) (v : JSVal) : Option String :=
  match stringifyVal h (h.length + 1) [] v with
  | .error _ => none
  | .ok none => some "undefined"
  | .ok (some s) => some s

/-- One step of the `String(v)` conversion used by `Array.prototype.join`
(`null`/`undefined` become the empty string, plain objects print as
`[object Object]`, arrays recursively join with commas, a revisited address
contributes the empty string — the cycle protection of `join`). -/
def joinStringStep (h : Heap) (ih : List Nat → JSVal → String)
    (visited : List Nat) (v : JSVal) : String :=
  match v with
  | .vnull => ""
  | .vundefined => ""
  | .vbool b => cond b "true" "false"
  | .vnum n => toString n
  | .vstr s => s
  | .vref a =>
    if a ∈ visited then ""
    else
      match h.get? a with
      | none => ""
      | some (.harr es) => String.intercalate "," (es.map (ih (a :: visited)))
      | some (.hobj _) => "[object Object]"

/-- Fueled `String(v)` conversion for `join` elements. -/
def joinString (h : Heap) (fuel : Nat) : List Nat → JSVal → String :=
  @Nat.rec (fun _ => List Nat → JSVal → String)
    (fun _ _ => "") (fun _ ih => joinStringStep h ih) fuel

/-- `parts.join(sep)` over arbitrary values. -/
def joinVals (h : Heap) (sep : String) (vs : List JSVal) : String :=
  String.intercalate sep (vs.map (joinString h (h.length + 1) []))

/-- The filter predicate of `extractTextFromResponse`:
`c != null && typeof c === 'object' && 'type' in c && c.type === 'text' && 'text' in c`. -/
def isTextBlock (h : Heap) (c : JSVal) : Bool :=
  !c.isNullish &&
    (match c with | .vref _ => true | .vnull => true | _ => false) &&
    hasField h c "type" &&
    (getField h c "type" == .vstr "text") &&
    hasField h c "text"

/-- The branch of `extractTextFromResponse` reached when the `content` field
yields no text parts: non-nullish `structuredContent` (returned directly when
a string, JSON-serialized otherwise), then a string `text` field, then the
JSON serialization of the whole object. -/
def objectContentFallback (h : Heap) (v : JSVal) : Option String :=
  let sc := getField h v "structuredContent"
  if sc.isNullish = false then
    match sc with
    | .vstr s => some s
    | _ => jsonStringify h sc
  else
    match getField h v "text" with
    | .vstr s => some s
    | _ => jsonStringify h v

/-- `extractTextFromResponse` from `textUtils.ts`.  The result is `none` when
the function throws — which happens exactly when one of its unguarded
`JSON.stringify` calls meets a circular structure. -/
def extractTextFromResponse (h : Heap) (v : JSVal) : Option String :=
  match v with
  | .vnull => some ""
  | .vundefined => some ""
  | .vstr s => some s
  | .vbool b => some (cond b "true" "false")
  | .vnum n => some (toString n)
  | .vref a =>
    match h.get? a with
    | some (.harr es) =>
      let textParts := (es.filter (fun c => isTextBlock h c)).map (fun c => getField h c "text")
      if 0 < textParts.length then some (joinVals h "\n" textParts)
      else jsonStringify h v
    | _ =>
      let fromContent : Option String :=
        match asArray h (getField h v "content") with
        | some ces =>
          let textParts := (ces.filter (fun c => isTextBlock h c)).map (fun c => getField h c "text")
          if 0 < textParts.length then some (joinVals h "\n" textParts) else none
        | none => none
      match fromContent with
      | some s => some s
      | none => objectContentFallback h v

/-- `text.includes(sub)`: contiguous substring test. -/
def listIsInfixOf : List Char → List Char → Bool
  | needle, [] => needle.isEmpty
  | needle, c :: rest => needle.isPrefixOf (c :: rest) || listIsInfixOf needle rest

/-- `String.prototype.includes`. -/
def jsIncludes (text sub : String) : Bool :=
  listIsInfixOf sub.toList text.toList

/-- `findMissingSubstrings` from `textUtils.ts`. -/
def findMissingSubstrings (text : String) (substrings : List String)
    (caseSensitive : Bool) : List String :=
  let searchText := if caseSensitive then text else text.toLower
  substrings.filter (fun substring =>
    let searchSubstring := if caseSensitive then substring else substring.toLower
    !jsIncludes searchText searchSubstring)

/-- An abstract JavaScript regular-expression engine: `compile pattern flags`
is `new RegExp(pattern, flags)`, with `.error msg` the thrown `SyntaxError`
for an uncompilable pattern and the compiled result a match test. -/
structure RegexEngine where
  compile : String → String → Except String (String → Bool)

/-- `findFailedPatterns` from `textUtils.ts`: every pattern is compiled with
the multiline flag `m`; the `try/catch` around `new RegExp` turns an
uncompilable pattern into a failed match instead of a thrown error. -/
def findFailedPatterns (eng : RegexEngine) (text : String) (patterns : List String) :
    List String :=
  patterns.filter (fun pattern =>
    match eng.compile pattern "m" with
    | .ok regex => !regex text
    | .error _ => true)

/-- A thrown JavaScript value: an `Error` instance with its message, or any
other value carried as its `String(...)` rendering. -/
inductive Thrown where
  | err (message : String)
  | other (stringRep : String)
deriving DecidableEq, Repr

/-- The runner's catch conversion `err instanceof Error ? err.message : String(err)`. -/
def Thrown.messageJS : Thrown → String
  | .err m => m
  | .other s => s

/-- `String(err)` (an `Error` prints as `Error: message`, or just `Error`
when the message is empty). -/
def Thrown.toStringJS : Thrown → String
  | .err m => if m = "" then "Error" else "Error: " ++ m
  | .other s => s

/-- `EvalExpectationResult` from `evalRunner.ts`. -/
structure EvalExpectationResult where
  pass : Bool
  details : Option String := none
deriving DecidableEq, Repr

/-- The shape returned by `callTool`: `{content, structuredContent?, isError?}`
(absent optional fields are `undefined`). -/
structure CallToolResult where
  content : JSVal
  structuredContent : JSVal := .vundefined
  isError : JSVal := .vundefined
deriving DecidableEq, Repr

/-- The judge collaborator is opaque to the runner (only threaded through the
context), so it is modelled as a bare token. -/
structure LLMJudgeClient where
  clientId : Nat
deriving DecidableEq, Repr

/-- The MCP fixture API surface the runner uses. -/
structure MCPFixtureApi where
  callTool : String → JSVal → Except Thrown CallToolResult

/-- `EvalExpectationContext` from `evalRunner.ts`. -/
structure EvalExpectationContext where
  mcp : MCPFixtureApi
  judgeClient : Option LLMJudgeClient := none

/-- A `string | string[]` union field. -/
inductive StrOrList where
  | one (s : String)
  | many (ss : List String)
deriving DecidableEq, Repr

/-- The `Array.isArray(x) ? x : [x]` normalization. -/
def StrOrList.toListJS : StrOrList → List String
  | .one s => [s]
  | .many ss => ss

/-- A value of the `expectedError` directive: `true`/`false`, a string, or a
list of strings (the shapes the error expectation distinguishes). -/
inductive ErrorDirective where
  | boolDir (b : Bool)
  | strDir (s : String)
  | listDir (ss : List String)
deriving DecidableEq, Repr

/-- `EvalCase` from `datasetTypes.ts`.  `expectedError` is the field read by
`errorExpectation.ts`; it is absent from the `EvalCase` interface and from
`EvalCaseSchema`, so the zod validator below always leaves it `none`. -/
structure EvalCase where
  id : String
  description : Option String := none
  toolName : String
  args : JSVal
  expectedExact : Option JSVal := none
  expectedSchemaName : Option String := none
  judgeConfigId : Option String := none
  expectedTextContains : Option StrOrList := none
  expectedRegex : Option StrOrList := none
  metadata : Option JSVal := none
  expectedError : Option ErrorDirective := none
deriving DecidableEq, Repr

/-- `EvalDataset` (the parts the runner reads). -/
structure EvalDataset where
  name : String
  description : Option String := none
  cases : List EvalCase

/-- `EvalExpectation` from `evalRunner.ts`: an async function that can reject. -/
def EvalExpectation :=
  EvalExpectationContext → EvalCase → JSVal → Except Thrown EvalExpectationResult

/-- The `expectations` record of `EvalRunnerOptions`: the three kinds the
runner accepts (`exact`, `schema`, `judge`). -/
structure EvalExpectationFns where
  exact : Option EvalExpectation := none
  schema : Option EvalExpectation := none
  judge : Option EvalExpectation := none

/-- The `expectations` record of `EvalCaseResult` (`evalRunner.ts` lines
71-75): one optional slot per accepted kind. -/
structure EvalCaseExpectations where
  exact : Option EvalExpectationResult := none
  schema : Option EvalExpectationResult := none
  judge : Option EvalExpectationResult := none
deriving DecidableEq, Repr

/-- `EvalCaseResult` (wall-clock `durationMs` omitted: timing is
environmental and no claim concerns it).  `response = .vundefined` is the
`undefined` left by a thrown tool call. -/
structure EvalCaseResult where
  id : String
  pass : Bool
  response : JSVal := .vundefined
  error : Option String := none
  expectations : EvalCaseExpectations
deriving DecidableEq, Repr

/-- `EvalRunnerResult` (again without `durationMs`). -/
structure EvalRunnerResult where
  total : Nat
  passed : Nat
  failed : Nat
  caseResults : List EvalCaseResult
deriving DecidableEq, Repr

/-- `EvalRunnerOptions`. -/
structure EvalRunnerOptions where
  dataset : EvalDataset
  expectations : EvalExpectationFns
  judgeClient : Option LLMJudgeClient := none
  stopOnFailure : Option Bool := none
  onCaseComplete : Option (EvalCaseResult → Except Thrown Unit) := none

/-- The per-expectation `try/catch` of the runner loop: a throwing expectation
becomes a failing result whose details name the kind that threw. -/
def applyExpectation (kind : String) (f : EvalExpectation)
    (ctx : EvalExpectationContext) (c : EvalCase) (response : JSVal) :
    EvalExpectationResult :=
  match f ctx c response with
  | .ok r => r
  | .error t => ⟨false, some (kind ++ " expectation threw error: " ++ t.toStringJS)⟩

/-- `result.structuredContent ?? result.content`. -/
def narrowedResponse (result : CallToolResult) : JSVal :=
  if result.structuredContent.isNullish then result.content else result.structuredContent

/-- `Object.values(expectationResults).every((r) => r === undefined || r.pass)`. -/
def expectationsAllPass (e : EvalCaseExpectations) : Bool :=
  (match e.exact with | none => true | some r => r.pass) &&
  (match e.schema with | none => true | some r => r.pass) &&
  (match e.judge with | none => true | some r => r.pass)

/-- The body of the runner's per-case loop (`evalRunner.ts` lines 189-272).
The enriched context differs from the original only in `judgeClient`, so its
`mcp` is the one the tool call uses.  Note the `if (!error)` guard: a thrown
error whose message is the empty string is falsy, so the expectations still
run and `pass` is not forced to `false`. -/
def processCase (expcts : EvalExpectationFns) (ectx : EvalExpectationContext)
    (c : EvalCase) : EvalCaseResult :=
  let callOutcome := ectx.mcp.callTool c.toolName c.args
  let response : JSVal :=
    match callOutcome with
    | .ok result => narrowedResponse result
    | .error _ => .vundefined
  let error : Option String :=
    match callOutcome with
    | .ok _ => none
    | .error e => some e.messageJS
  let errFalsy : Bool :=
    match error with
    | none => true
    | some s => s = ""
  let expectationResults : EvalCaseExpectations :=
    if errFalsy then
      ⟨expcts.exact.map (fun f => applyExpectation "Exact" f ectx c response),
       expcts.schema.map (fun f => applyExpectation "Schema" f ectx c response),
       expcts.judge.map (fun f => applyExpectation "Judge" f ectx c response)⟩
    else ⟨none, none, none⟩
  ⟨c.id, errFalsy && expectationsAllPass expectationResults, response, error,
   expectationResults⟩

/-- Awaiting the optional per-case callback; its errors are not caught. -/
def notifyCase (cb : Option (EvalCaseResult → Except Thrown Unit))
    (r : EvalCaseResult) : Except Thrown Unit :=
  match cb with
  | some f => f r
  | none => .ok ()

/-- The runner loop: sequential case processing with the optional callback
and the `stopOnFailure` early break after appending the failing result. -/
def runCases (expcts : EvalExpectationFns) (ectx : EvalExpectationContext)
    (stopOnFailure : Bool) (cb : Option (EvalCaseResult → Except Thrown Unit)) :
    List EvalCase → Except Thrown (List EvalCaseResult)
  | [] => .ok []
  | c :: rest =>
    let caseResult := processCase expcts ectx c
    match notifyCase cb caseResult with
    | .error t => .error t
    | .ok _ =>
      if stopOnFailure && !caseResult.pass then .ok [caseResult]
      else
        match runCases expcts ectx stopOnFailure cb rest with
        | .error t => .error t
        | .ok rs => .ok (caseResult :: rs)

/-- `judgeClient ?? context.judgeClient ?? null`. -/
def enrichedContextOf (options : EvalRunnerOptions) (context : EvalExpectationContext) :
    EvalExpectationContext :=
  ⟨context.mcp, options.judgeClient.orElse (fun _ => context.judgeClient)⟩

/-- `caseResults.filter((r) => r.pass).length`. -/
def countPassed (rs : List EvalCaseResult) : Nat := (rs.filter (fun r => r.pass)).length

/-- `caseResults.filter((r) => !r.pass).length`. -/
def countFailed (rs : List EvalCaseResult) : Nat := (rs.filter (fun r => !r.pass)).length

/-- `runEvalDataset` from `evalRunner.ts`.  The only uncaught throw inside the
loop is the per-case callback's, so the whole run is `Except Thrown _`. -/
def runEvalDataset (options : EvalRunnerOptions) (context : EvalExpectationContext) :
    Except Thrown EvalRunnerResult :=
  match runCases options.expectations (enrichedContextOf options context)
      (options.stopOnFailure.getD false) options.onCaseComplete options.dataset.cases with
  | .error t => .error t
  | .ok caseResults =>
    .ok ⟨caseResults.length, countPassed caseResults, countFailed caseResults, caseResults⟩

/-- `text.slice(0, 500)` plus the conditional ellipsis used in details. -/
def textPreview (t : String) : String :=
  t.take 500 ++ (if 500 < t.length then "..." else "")

/-- The substring branch of the error expectation (`errorExpectation.ts`
lines 87-107): extract the error text and require every expected substring,
case-insensitively.  The unguarded extraction can throw on circular data. -/
def errorTextCheck (h : Heap) (response : JSVal) (patterns : List String) :
    Except Thrown EvalExpectationResult :=
  match extractTextFromResponse h response with
  | none => .error (.err "Converting circular structure to JSON")
  | some errorText =>
    let missing := findMissingSubstrings errorText patterns false
    if 0 < missing.length then
      .ok ⟨false, some ("Error message missing expected content: " ++
        String.intercalate ", " (missing.map (fun s => "\"" ++ s ++ "\"")) ++
        "\n\nActual error:\n" ++ textPreview errorText)⟩
    else
      .ok ⟨true, some "Tool returned expected error with matching message"⟩

/-- `createErrorExpectation` from `errorExpectation.ts`.  The branch order is
the source's: skip when `expectedError` is `undefined`, then require
`isError === true`, then `expectedError === true`, then the string/array
check, with the trailing fallback accepting any other (even falsy) value. -/
def createErrorExpectation (h : Heap) : EvalExpectation :=
  fun _context evalCase response =>
    let hasError := getField h response "isError" == JSVal.vbool true
    match evalCase.expectedError with
    | none => .ok ⟨true, some "No error expectation defined, skipping"⟩
    | some directive =>
      if !hasError then
        .ok ⟨false, some "Expected tool to return isError: true, but it returned success"⟩
      else
        match directive with
        | .boolDir true => .ok ⟨true, some "Tool correctly returned an error as expected"⟩
        | .strDir s => errorTextCheck h response [s]
        | .listDir ss => errorTextCheck h response ss
        | .boolDir false => .ok ⟨true, some "Tool correctly returned an error as expected"⟩

/-- `createRegexExpectation` from `regexExpectation.ts`: skip if no patterns,
extract text, require every pattern to match via `findFailedPatterns`; the
details of a failure recompile each failed pattern (without flags) only to
label it valid or invalid. -/
def createRegexExpectation (eng : RegexEngine) (h : Heap) : EvalExpectation :=
  fun _context evalCase response =>
    match evalCase.expectedRegex with
    | none => .ok ⟨true, some "No expectedRegex defined, skipping"⟩
    | some expected =>
      match extractTextFromResponse h response with
      | none => .error (.err "Converting circular structure to JSON")
      | some text =>
        let patterns := expected.toListJS
        let failed := findFailedPatterns eng text patterns
        if failed.length = 0 then
          .ok ⟨true, some (if patterns.length = 1 then "Text matches expected pattern"
            else "Text matches all " ++ toString patterns.length ++ " expected patterns")⟩
        else
          let failureDetails := String.intercalate "\n" (failed.map (fun pattern =>
            match eng.compile pattern "" with
            | .ok _ => "  - Pattern: /" ++ pattern ++ "/"
            | .error msg => "  - Invalid pattern: /" ++ pattern ++ "/ (" ++ msg ++ ")"))
          .ok ⟨false, some ("Failed to match " ++ toString failed.length ++
            " pattern(s):\n" ++ failureDetails ++ "\n\nResponse text:\n" ++ textPreview text)⟩

/-- A required `z.string()` field. -/
def parseString? (v : JSVal) : Option String :=
  match v with
  | .vstr s => some s
  | _ => none

/-- A `z.string().optional()` field: absent/`undefined` is fine, a present
value must be a string, anything else is a `ZodError`. -/
def parseOptionalString (v : JSVal) : Option (Option String) :=
  match v with
  | .vundefined => some none
  | .vstr s => some (some s)
  | _ => none

/-- Whether `v` is a plain object (what `z.record(z.unknown())` accepts). -/
def isRecordVal (h : Heap) (v : JSVal) : Bool :=
  match v with
  | .vref a =>
    match h.get? a with
    | some (.hobj _) => true
    | _ => false
  | _ => false

/-- A `z.record(z.unknown()).optional()` field. -/
def parseOptionalRecord (h : Heap) (v : JSVal) : Option (Option JSVal) :=
  match v with
  | .vundefined => some none
  | _ => if isRecordVal h v then some (some v) else none

/-- A `z.union([z.string(), z.array(z.string())]).optional()` field. -/
def parseStrOrList (h : Heap) (v : JSVal) : Option (Option StrOrList) :=
  match v with
  | .vundefined => some none
  | .vstr s => some (some (.one s))
  | .vref a =>
    match h.get? a with
    | some (.harr es) => (es.mapM parseString?).map (fun ss => some (.many ss))
    | _ => none
  | _ => none

/-- `EvalCaseSchema.parse` / `validateEvalCase` from `datasetTypes.ts`.
`none` is a thrown `ZodError`.  zod's `z.object` strips unknown keys, and
`expectedError` is not declared in the schema, so the parsed case always has
`expectedError := none` — even when the input carries the field. -/
def validateEvalCase (h : Heap) (v : JSVal) : Option EvalCase := do
  if isRecordVal h v then
    let idStr ← parseString? (getField h v "id")
    if idStr = "" then none
    else do
      let description ← parseOptionalString (getField h v "description")
      let toolName ← parseString? (getField h v "toolName")
      if toolName = "" then none
      else do
        let argsVal := getField h v "args"
        if isRecordVal h argsVal then
          let expectedExact : Option JSVal :=
            match getField h v "expectedExact" with
            | .vundefined => none
            | w => some w
          let expectedSchemaName ← parseOptionalString (getField h v "expectedSchemaName")
          let judgeConfigId ← parseOptionalString (getField h v "judgeConfigId")
          let expectedTextContains ← parseStrOrList h (getField h v "expectedTextContains")
          let expectedRegex ← parseStrOrList h (getField h v "expectedRegex")
          let metadata ← parseOptionalRecord h (getField h v "metadata")
          pure ⟨idStr, description, toolName, argsVal, expectedExact, expectedSchemaName,
            judgeConfigId, expectedTextContains, expectedRegex, metadata, none⟩
        else none
  else none

theorem notifyCase_none (r : EvalCaseResult) : notifyCase none r = .ok () := rfl

theorem runCases_sound (expcts : EvalExpectationFns) (ectx : EvalExpectationContext)
    (stop : Bool) (cb : Option (EvalCaseResult → Except Thrown Unit)) :
    ∀ (cases : List EvalCase) (rs : List EvalCaseResult),
      runCases expcts ectx stop cb cases = .ok rs →
      rs.length ≤ cases.length ∧
      ∀ i (h1 : i < rs.length) (h2 : i < cases.length),
        rs.get ⟨i, h1⟩ = processCase expcts ectx (cases.get ⟨i, h2⟩) := by
  intro cases
  induction cases with
  | nil =>
    intro rs h
    simp only [runCases] at h
    cases h
    exact ⟨Nat.le_refl _, fun i h1 _ => absurd h1 (by simp)⟩
  | cons c rest ih =>
    intro rs h
    simp only [runCases] at h
    cases hcb : notifyCase cb (processCase expcts ectx c) with
    | error t => rw [hcb] at h; simp at h
    | ok u =>
      rw [hcb] at h
      by_cases hstop : (stop && !(processCase expcts ectx c).pass) = true
      · rw [if_pos hstop] at h
        cases h
        refine ⟨Nat.succ_le_succ (Nat.zero_le _), ?_⟩
        intro i h1 h2
        match i, h1 with
        | 0, _ => rfl
      · rw [if_neg hstop] at h
        cases hrec : runCases expcts ectx stop cb rest with
        | error t => rw [hrec] at h; simp at h
        | ok rs₂ =>
          rw [hrec] at h
          cases h
          obtain ⟨hlen, hpt⟩ := ih rs₂ hrec
          refine ⟨Nat.succ_le_succ hlen, ?_⟩
          intro i h1 h2
          match i with
          | 0 => rfl
          | Nat.succ j => exact hpt j (Nat.lt_of_succ_lt_succ h1) (Nat.lt_of_succ_lt_succ h2)

theorem runCases_ok_of_none (expcts : EvalExpectationFns) (ectx : EvalExpectationContext)
    (stop : Bool) :
    ∀ cases, ∃ rs, runCases expcts ectx stop none cases = .ok rs := by
  intro cases
  induction cases with
  | nil => exact ⟨[], rfl⟩
  | cons c rest ih =>
    obtain ⟨rs, hrs⟩ := ih
    by_cases hstop : (stop && !(processCase expcts ectx c).pass) = true
    · exact ⟨[processCase expcts ectx c], by simp [runCases, notifyCase, hstop]⟩
    · exact ⟨processCase expcts ectx c :: rs, by simp [runCases, notifyCase, hstop, hrs]⟩

theorem runCases_stop_nonlast_pass (expcts : EvalExpectationFns) (ectx : EvalExpectationContext)
    (cb : Option (EvalCaseResult → Except Thrown Unit)) :
    ∀ (cases : List EvalCase) (rs : List EvalCaseResult),
      runCases expcts ectx true cb cases = .ok rs →
      ∀ i (h1 : i + 1 < rs.length), (rs.get ⟨i, Nat.lt_of_succ_lt h1⟩).pass = true := by
  intro cases
  induction cases with
  | nil =>
    intro rs h
    simp only [runCases] at h
    cases h
    intro i h1
    simp at h1
  | cons c rest ih =>
    intro rs h
    simp only [runCases] at h
    cases hcb : notifyCase cb (processCase expcts ectx c) with
    | error t => rw [hcb] at h; simp at h
    | ok u =>
      rw [hcb] at h
      by_cases hstop : (true && !(processCase expcts ectx c).pass) = true
      · rw [if_pos hstop] at h
        cases h
        intro i h1
        simp at h1
      · rw [if_neg hstop] at h
        have hpassc : (processCase expcts ectx c).pass = true := by
          simpa using hstop
        cases hrec : runCases expcts ectx true cb rest with
        | error t => rw [hrec] at h; simp at h
        | ok rs₂ =>
          rw [hrec] at h
          cases h
          intro i h1
          match i with
          | 0 => exact hpassc
          | Nat.succ j => exact ih rs₂ hrec j (Nat.lt_of_succ_lt_succ h1)

theorem countPassed_add_countFailed (rs : List EvalCaseResult) :
    countPassed rs + countFailed rs = rs.length := by
  induction rs with
  | nil => rfl
  | cons r rest ih =>
    by_cases hp : r.pass = true
    · simp [countPassed, countFailed, List.filter, hp] at ih ⊢
      omega
    · simp [countPassed, countFailed, List.filter, hp] at ih ⊢
      omega

theorem processCase_of_callTool_ok (expcts : EvalExpectationFns)
    (ectx : EvalExpectationContext) (c : EvalCase) (tr : CallToolResult)
    (h : ectx.mcp.callTool c.toolName c.args = .ok tr) :
    processCase expcts ectx c =
      ⟨c.id,
       expectationsAllPass
         ⟨expcts.exact.map (fun f => applyExpectation "Exact" f ectx c (narrowedResponse tr)),
          expcts.schema.map (fun f => applyExpectation "Schema" f ectx c (narrowedResponse tr)),
          expcts.judge.map (fun f => applyExpectation "Judge" f ectx c (narrowedResponse tr))⟩,
       narrowedResponse tr, none,
       ⟨expcts.exact.map (fun f => applyExpectation "Exact" f ectx c (narrowedResponse tr)),
        expcts.schema.map (fun f => applyExpectation "Schema" f ectx c (narrowedResponse tr)),
        expcts.judge.map (fun f => applyExpectation "Judge" f ectx c (narrowedResponse tr))⟩⟩ := by
  simp [processCase, h]

theorem processCase_of_callTool_error (expcts : EvalExpectationFns)
    (ectx : EvalExpectationContext) (c : EvalCase) (t : Thrown)
    (h : ectx.mcp.callTool c.toolName c.args = .error t) (hmsg : t.messageJS ≠ "") :
    processCase expcts ectx c = ⟨c.id, false, .vundefined, some t.messageJS, ⟨none, none, none⟩⟩ := by
  simp [processCase, h, hmsg]

theorem runEvalDataset_ok_elim (options : EvalRunnerOptions) (context : EvalExpectationContext)
    (res : EvalRunnerResult) (h : runEvalDataset options context = .ok res) :
    ∃ rs, runCases options.expectations (enrichedContextOf options context)
        (options.stopOnFailure.getD false) options.onCaseComplete options.dataset.cases = .ok rs ∧
      res = ⟨rs.length, countPassed rs, countFailed rs, rs⟩ := by
  cases hrc : runCases options.expectations (enrichedContextOf options context)
      (options.stopOnFailure.getD false) options.onCaseComplete options.dataset.cases with
  | error t => rw [runEvalDataset, hrc] at h; simp at h
  | ok rs =>
    rw [runEvalDataset, hrc] at h
    exact ⟨rs, rfl, by injection h with h'; exact h'.symm⟩

/-! Concrete fixtures for the runner claims. -/

/-- An expectation that always passes. -/
def alwaysPassFn : EvalExpectation := fun _ _ _ => .ok ⟨true, none⟩

/-- An MCP collaborator whose every tool call returns the text `hello`. -/
def mcpHello : MCPFixtureApi := ⟨fun _ _ => .ok ⟨.vstr "hello", .vundefined, .vundefined⟩⟩

/-- A case declaring textContains, regex and error directives (none of which
the runner can evaluate or record). -/
def caseSixKinds : EvalCase :=
  ⟨"c1", none, "tool", .vnull, none, none, none, some (.one "ABSENT"),
   some (.one "nope"), none, some (.boolDir true)⟩

def optsSixKinds : EvalRunnerOptions :=
  ⟨⟨"ds", none, [caseSixKinds]⟩, ⟨some alwaysPassFn, some alwaysPassFn, some alwaysPassFn⟩,
   none, none, none⟩

def ctxHello : EvalExpectationContext := ⟨mcpHello, none⟩

/-- The `error` field of a case result is exactly the caught tool-call error. -/
theorem processCase_error_eq (expcts : EvalExpectationFns) (ectx : EvalExpectationContext)
    (c : EvalCase) :
    (processCase expcts ectx c).error =
      match ectx.mcp.callTool c.toolName c.args with
      | .ok _ => none
      | .error e => some e.messageJS := rfl

/-- C1, counterexample.  A run in which every expectation function the options
type accepts is enabled and the single case carries `expectedTextContains`,
`expectedRegex` and `expectedError` directives that the response violates.
The produced expectations record consists of the three slots `exact`,
`schema`, `judge` only — there is no slot in which a textContains, regex or
error outcome could be recorded, and the case passes even though its
directives fail, so the options do not accept the six claimed kinds. -/
theorem runner_six_kinds_counterexample :
    runEvalDataset optsSixKinds ctxHello =
      .ok ⟨1, 1, 0, [⟨"c1", true, .vstr "hello", none,
        ⟨some ⟨true, none⟩, some ⟨true, none⟩, some ⟨true, none⟩⟩⟩]⟩ := rfl

/-- C1, amended: the options accept the three expectation kinds `exact`,
`schema` and `judge`, and for every case whose tool call did not throw, each
enabled kind's outcome is recorded in its own slot of the case result's
expectations record (a kind's slot is filled exactly when that kind is
enabled). -/
theorem runner_enabled_kinds_recorded (options : EvalRunnerOptions)
    (context : EvalExpectationContext) (res : EvalRunnerResult)
    (hrun : runEvalDataset options context = .ok res)
    (i : Nat) (h1 : i < res.caseResults.length) (h2 : i < options.dataset.cases.length)
    (herr : (res.caseResults.get ⟨i, h1⟩).error = none) :
    (res.caseResults.get ⟨i, h1⟩).expectations.exact.isSome
        = options.expectations.exact.isSome ∧
    (res.caseResults.get ⟨i, h1⟩).expectations.schema.isSome
        = options.expectations.schema.isSome ∧
    (res.caseResults.get ⟨i, h1⟩).expectations.judge.isSome
        = options.expectations.judge.isSome := by
  obtain ⟨rs, hrc, hres⟩ := runEvalDataset_ok_elim options context res hrun
  subst hres
  obtain ⟨hlen, hpt⟩ := runCases_sound _ _ _ _ _ rs hrc
  rw [hpt i h1 h2] at herr ⊢
  cases hcall : (enrichedContextOf options context).mcp.callTool
      ((options.dataset.cases.get ⟨i, h2⟩).toolName)
      ((options.dataset.cases.get ⟨i, h2⟩).args) with
  | error t =>
    exfalso
    rw [processCase_error_eq, hcall] at herr
    exact Option.noConfusion herr
  | ok tr =>
    rw [processCase_of_callTool_ok _ _ _ _ hcall]
    refine ⟨?_, ?_, ?_⟩
    · cases options.expectations.exact <;> rfl
    · cases options.expectations.schema <;> rfl
    · cases options.expectations.judge <;> rfl

/-- The processed run used as the C1 witness input. -/
def resSixKinds : EvalRunnerResult :=
  ⟨1, 1, 0, [⟨"c1", true, .vstr "hello", none,
    ⟨some ⟨true, none⟩, some ⟨true, none⟩, some ⟨true, none⟩⟩⟩]⟩

theorem runner_enabled_kinds_recorded_witness :
    (resSixKinds.caseResults.get ⟨0, by decide⟩).expectations.exact.isSome
        = optsSixKinds.expectations.exact.isSome ∧
    (resSixKinds.caseResults.get ⟨0, by decide⟩).expectations.schema.isSome
        = optsSixKinds.expectations.schema.isSome ∧
    (resSixKinds.caseResults.get ⟨0, by decide⟩).expectations.judge.isSome
        = optsSixKinds.expectations.judge.isSome :=
  runner_enabled_kinds_recorded optsSixKinds ctxHello resSixKinds rfl 0
    (by decide) (by decide) rfl

/-- A case with no expectation directives. -/
def casePlain : EvalCase := ⟨"c1", none, "x", .vnull, none, none, none, none, none, none, none⟩

/-- A tool collaborator that throws an `Error` with empty message. -/
def mcpThrowEmptyMsg : MCPFixtureApi := ⟨fun _ _ => .error (.err "")⟩

def optsEmptyThrow : EvalRunnerOptions :=
  ⟨⟨"ds", none, [casePlain]⟩, ⟨some alwaysPassFn, none, none⟩, none, none, none⟩

/-- C2, counterexample.  The tool call throws `new Error("")`; because the
runner's guard is the truthiness test `if (!error)` and the captured message
is the empty string, the expectations still run, the expectations record is
not empty, and the case is marked `pass = true` — while the claim requires
no expectation calls, an empty record and `pass = false` for every throw. -/
theorem tool_throw_empty_message_counterexample :
    runEvalDataset optsEmptyThrow ⟨mcpThrowEmptyMsg, none⟩ =
      .ok ⟨1, 1, 0, [⟨"c1", true, .vundefined, some "", ⟨some ⟨true, none⟩, none, none⟩⟩]⟩ := rfl

/-- C2, amended: for every case whose tool invocation throws with a non-empty
message (`String(err)` not the empty string), the runner records the message
as the case result's `error`, leaves `response` undefined, invokes no
expectation function (the expectations record is empty), and marks the case
`pass = false`. -/
theorem tool_throw_skips_expectations (options : EvalRunnerOptions)
    (context : EvalExpectationContext) (res : EvalRunnerResult)
    (hrun : runEvalDataset options context = .ok res)
    (i : Nat) (h1 : i < res.caseResults.length) (h2 : i < options.dataset.cases.length)
    (t : Thrown)
    (hcall : context.mcp.callTool ((options.dataset.cases.get ⟨i, h2⟩).toolName)
        ((options.dataset.cases.get ⟨i, h2⟩).args) = .error t)
    (hmsg : t.messageJS ≠ "") :
    res.caseResults.get ⟨i, h1⟩ =
      ⟨(options.dataset.cases.get ⟨i, h2⟩).id, false, .vundefined, some t.messageJS,
       ⟨none, none, none⟩⟩ := by
  obtain ⟨rs, hrc, hres⟩ := runEvalDataset_ok_elim options context res hrun
  subst hres
  obtain ⟨hlen, hpt⟩ := runCases_sound _ _ _ _ _ rs hrc
  rw [hpt i h1 h2]
  exact processCase_of_callTool_error _ _ _ _ hcall hmsg

/-- A tool collaborator that throws `new Error("boom")`. -/
def mcpThrowBoom : MCPFixtureApi := ⟨fun _ _ => .error (.err "boom")⟩

def optsBoom : EvalRunnerOptions :=
  ⟨⟨"ds", none, [casePlain]⟩, ⟨some alwaysPassFn, none, none⟩, none, none, none⟩

def resBoom : EvalRunnerResult :=
  ⟨1, 0, 1, [⟨"c1", false, .vundefined, some "boom", ⟨none, none, none⟩⟩]⟩

theorem tool_throw_skips_expectations_witness :
    runEvalDataset optsBoom ⟨mcpThrowBoom, none⟩ = .ok resBoom ∧
    resBoom.caseResults.get ⟨0, by decide⟩ =
      ⟨"c1", false, .vundefined, some "boom", ⟨none, none, none⟩⟩ :=
  ⟨rfl, tool_throw_skips_expectations optsBoom ⟨mcpThrowBoom, none⟩ resBoom rfl 0
    (by decide) (by decide) (.err "boom") rfl (by decide)⟩

/-- C3: a throwing expectation is isolated.  When the run has no per-case
callback it always completes; for every case whose tool call succeeded, every
slot of the expectations record is the wrapped application of its own enabled
expectation function (so a throwing one cannot disturb its siblings); and a
throw inside one expectation becomes that slot's failing result whose details
name the kind that threw and the thrown error. -/
theorem expectation_fault_isolation (options : EvalRunnerOptions)
    (context : EvalExpectationContext)
    (hcb : options.onCaseComplete = none) :
    (∃ res, runEvalDataset options context = .ok res ∧
      ∀ i (h1 : i < res.caseResults.length) (h2 : i < options.dataset.cases.length)
        (tr : CallToolResult),
        context.mcp.callTool ((options.dataset.cases.get ⟨i, h2⟩).toolName)
            ((options.dataset.cases.get ⟨i, h2⟩).args) = .ok tr →
        (res.caseResults.get ⟨i, h1⟩).expectations =
          ⟨options.expectations.exact.map (fun f => applyExpectation "Exact" f
              (enrichedContextOf options context) (options.dataset.cases.get ⟨i, h2⟩)
              (narrowedResponse tr)),
           options.expectations.schema.map (fun f => applyExpectation "Schema" f
              (enrichedContextOf options context) (options.dataset.cases.get ⟨i, h2⟩)
              (narrowedResponse tr)),
           options.expectations.judge.map (fun f => applyExpectation "Judge" f
              (enrichedContextOf options context) (options.dataset.cases.get ⟨i, h2⟩)
              (narrowedResponse tr))⟩) ∧
    ∀ (kind : String) (f : EvalExpectation) (ctx : EvalExpectationContext)
      (c : EvalCase) (resp : JSVal) (t : Thrown),
      f ctx c resp = .error t →
      applyExpectation kind f ctx c resp =
        ⟨false, some (kind ++ " expectation threw error: " ++ t.toStringJS)⟩ := by
  constructor
  · obtain ⟨rs, hrs⟩ := runCases_ok_of_none options.expectations
      (enrichedContextOf options context) (options.stopOnFailure.getD false)
      options.dataset.cases
    refine ⟨⟨rs.length, countPassed rs, countFailed rs, rs⟩, ?_, ?_⟩
    · rw [runEvalDataset, hcb, hrs]
    · intro i h1 h2 tr hcall
      obtain ⟨hlen, hpt⟩ := runCases_sound _ _ _ _ _ rs hrs
      rw [hpt i h1 h2, processCase_of_callTool_ok options.expectations
        (enrichedContextOf options context) _ _ hcall]
  · intro kind f ctx c resp t hthrow
    rw [applyExpectation, hthrow]

/-- An expectation that always throws `new Error("boom")`. -/
def throwFnBoom : EvalExpectation := fun _ _ _ => .error (.err "boom")

def optsThrowExact : EvalRunnerOptions :=
  ⟨⟨"ds", none, [casePlain]⟩, ⟨some throwFnBoom, some alwaysPassFn, none⟩, none, none, none⟩

theorem expectation_fault_isolation_witness :
    applyExpectation "Exact" throwFnBoom ctxHello casePlain (.vstr "hello") =
      ⟨false, some "Exact expectation threw error: Error: boom"⟩ :=
  (expectation_fault_isolation optsThrowExact ctxHello rfl).2 "Exact" throwFnBoom
    ctxHello casePlain (.vstr "hello") (.err "boom") rfl

/-- C9: every completed run satisfies `total = passed + failed =
caseResults.length`, `passed`/`failed` count the results with `pass`
true/false, and `caseResults` preserves dataset order (the `i`-th result is
for the `i`-th dataset case). -/
theorem runner_result_totals (options : EvalRunnerOptions)
    (context : EvalExpectationContext) (res : EvalRunnerResult)
    (hrun : runEvalDataset options context = .ok res) :
    res.total = res.passed + res.failed ∧
    res.total = res.caseResults.length ∧
    res.passed = (res.caseResults.filter (fun r => r.pass)).length ∧
    res.failed = (res.caseResults.filter (fun r => !r.pass)).length ∧
    ∀ i (h1 : i < res.caseResults.length) (h2 : i < options.dataset.cases.length),
      (res.caseResults.get ⟨i, h1⟩).id = (options.dataset.cases.get ⟨i, h2⟩).id := by
  obtain ⟨rs, hrc, hres⟩ := runEvalDataset_ok_elim options context res hrun
  subst hres
  obtain ⟨hlen, hpt⟩ := runCases_sound _ _ _ _ _ rs hrc
  refine ⟨(countPassed_add_countFailed rs).symm, rfl, rfl, rfl, ?_⟩
  intro i h1 h2
  rw [hpt i h1 h2]
  rfl

def optsTotals : EvalRunnerOptions :=
  ⟨⟨"ds", none, [casePlain]⟩, ⟨some alwaysPassFn, none, none⟩, none, none, none⟩

def resTotals : EvalRunnerResult :=
  ⟨1, 1, 0, [⟨"c1", true, .vstr "hello", none, ⟨some ⟨true, none⟩, none, none⟩⟩]⟩

theorem runner_result_totals_witness :
    runEvalDataset optsTotals ctxHello = .ok resTotals ∧
    resTotals.total = resTotals.passed + resTotals.failed ∧
    resTotals.total = resTotals.caseResults.length :=
  ⟨rfl, (runner_result_totals optsTotals ctxHello resTotals rfl).1,
    (runner_result_totals optsTotals ctxHello resTotals rfl).2.1⟩

/-- C10: for every case whose tool call succeeds, the stored `response` and
the `response` argument of every enabled expectation are
`result.structuredContent ?? result.content` — never the whole tool result —
and that narrowing is independent of the result's `isError` flag. -/
theorem runner_response_narrowing (options : EvalRunnerOptions)
    (context : EvalExpectationContext) (res : EvalRunnerResult)
    (hrun : runEvalDataset options context = .ok res) :
    (∀ i (h1 : i < res.caseResults.length) (h2 : i < options.dataset.cases.length)
      (tr : CallToolResult),
      context.mcp.callTool ((options.dataset.cases.get ⟨i, h2⟩).toolName)
          ((options.dataset.cases.get ⟨i, h2⟩).args) = .ok tr →
      (res.caseResults.get ⟨i, h1⟩).response = narrowedResponse tr ∧
      (res.caseResults.get ⟨i, h1⟩).expectations =
        ⟨options.expectations.exact.map (fun f => applyExpectation "Exact" f
            (enrichedContextOf options context) (options.dataset.cases.get ⟨i, h2⟩)
            (narrowedResponse tr)),
         options.expectations.schema.map (fun f => applyExpectation "Schema" f
            (enrichedContextOf options context) (options.dataset.cases.get ⟨i, h2⟩)
            (narrowedResponse tr)),
         options.expectations.judge.map (fun f => applyExpectation "Judge" f
            (enrichedContextOf options context) (options.dataset.cases.get ⟨i, h2⟩)
            (narrowedResponse tr))⟩) ∧
    ∀ (cnt sc e₁ e₂ : JSVal),
      narrowedResponse ⟨cnt, sc, e₁⟩ = narrowedResponse ⟨cnt, sc, e₂⟩ := by
  constructor
  · intro i h1 h2 tr hcall
    obtain ⟨rs, hrc, hres⟩ := runEvalDataset_ok_elim options context res hrun
    subst hres
    obtain ⟨hlen, hpt⟩ := runCases_sound _ _ _ _ _ rs hrc
    rw [hpt i h1 h2, processCase_of_callTool_ok options.expectations
      (enrichedContextOf options context) _ _ hcall]
    exact ⟨rfl, rfl⟩
  · intro cnt sc e₁ e₂
    rfl

/-- A tool whose results carry `structuredContent` and an `isError` flag. -/
def mcpStructured : MCPFixtureApi :=
  ⟨fun _ _ => .ok ⟨.vstr "raw", .vstr "structured", .vbool true⟩⟩

def optsNarrow : EvalRunnerOptions :=
  ⟨⟨"ds", none, [casePlain]⟩, ⟨some alwaysPassFn, none, none⟩, none, none, none⟩

def resNarrow : EvalRunnerResult :=
  ⟨1, 1, 0, [⟨"c1", true, .vstr "structured", none, ⟨some ⟨true, none⟩, none, none⟩⟩]⟩

theorem runner_response_narrowing_witness :
    runEvalDataset optsNarrow ⟨mcpStructured, none⟩ = .ok resNarrow ∧
    ((resNarrow.caseResults.get ⟨0, by decide⟩).response =
        narrowedResponse ⟨.vstr "raw", .vstr "structured", .vbool true⟩ ∧
      (resNarrow.caseResults.get ⟨0, by decide⟩).expectations =
        ⟨optsNarrow.expectations.exact.map (fun f => applyExpectation "Exact" f
            (enrichedContextOf optsNarrow ⟨mcpStructured, none⟩)
            ((optsNarrow.dataset.cases.get ⟨0, by decide⟩))
            (narrowedResponse ⟨.vstr "raw", .vstr "structured", .vbool true⟩)),
         optsNarrow.expectations.schema.map (fun f => applyExpectation "Schema" f
            (enrichedContextOf optsNarrow ⟨mcpStructured, none⟩)
            ((optsNarrow.dataset.cases.get ⟨0, by decide⟩))
            (narrowedResponse ⟨.vstr "raw", .vstr "structured", .vbool true⟩)),
         optsNarrow.expectations.judge.map (fun f => applyExpectation "Judge" f
            (enrichedContextOf optsNarrow ⟨mcpStructured, none⟩)
            ((optsNarrow.dataset.cases.get ⟨0, by decide⟩))
            (narrowedResponse ⟨.vstr "raw", .vstr "structured", .vbool true⟩))⟩) :=
  ⟨rfl, (runner_response_narrowing optsNarrow ⟨mcpStructured, none⟩ resNarrow rfl).1 0
    (by decide) (by decide) ⟨.vstr "raw", .vstr "structured", .vbool true⟩ rfl⟩

/-- Unfolding of the runner loop on a non-empty case list. -/
theorem runCases_cons_eq (expcts : EvalExpectationFns) (ectx : EvalExpectationContext)
    (stop : Bool) (cb : Option (EvalCaseResult → Except Thrown Unit))
    (c : EvalCase) (rest : List EvalCase) :
    runCases expcts ectx stop cb (c :: rest) =
      match notifyCase cb (processCase expcts ectx c) with
      | .error t => .error t
      | .ok _ =>
        if stop && !(processCase expcts ectx c).pass then .ok [processCase expcts ectx c]
        else
          match runCases expcts ectx stop cb rest with
          | .error t => .error t
          | .ok rs => .ok (processCase expcts ectx c :: rs) := rfl

/-- C7: with `stopOnFailure` enabled a completed run never records a failing
case except as its last entry, and on a three-case dataset whose first case
passes and whose second fails, the run stops after appending the second
result: `caseResults` is exactly the two processed results in dataset order
and `total = 2`. -/
theorem stop_on_failure_truncates (options : EvalRunnerOptions)
    (context : EvalExpectationContext) (res : EvalRunnerResult)
    (hstop : options.stopOnFailure = some true)
    (hrun : runEvalDataset options context = .ok res) :
    (∀ i (h1 : i + 1 < res.caseResults.length),
        (res.caseResults.get ⟨i, Nat.lt_of_succ_lt h1⟩).pass = true) ∧
    ∀ a b c, options.dataset.cases = [a, b, c] →
      (processCase options.expectations (enrichedContextOf options context) a).pass = true →
      (processCase options.expectations (enrichedContextOf options context) b).pass = false →
      res.caseResults =
        [processCase options.expectations (enrichedContextOf options context) a,
         processCase options.expectations (enrichedContextOf options context) b] ∧
      res.total = 2 := by
  obtain ⟨rs, hrc, hres⟩ := runEvalDataset_ok_elim options context res hrun
  subst hres
  rw [hstop] at hrc
  constructor
  · intro i h1
    exact runCases_stop_nonlast_pass _ _ _ _ rs hrc i h1
  · intro a b c hcases hpa hpb
    rw [hcases] at hrc
    rw [runCases_cons_eq] at hrc
    cases hcb1 : notifyCase options.onCaseComplete
        (processCase options.expectations (enrichedContextOf options context) a) with
    | error t => rw [hcb1] at hrc; simp at hrc
    | ok u =>
      rw [hcb1] at hrc
      have hcond1 : ((some true).getD false &&
          !(processCase options.expectations (enrichedContextOf options context) a).pass)
          = false := by rw [hpa]; rfl
      rw [hcond1] at hrc
      simp only [Bool.false_eq_true, if_false] at hrc
      rw [runCases_cons_eq] at hrc
      cases hcb2 : notifyCase options.onCaseComplete
          (processCase options.expectations (enrichedContextOf options context) b) with
      | error t => rw [hcb2] at hrc; simp at hrc
      | ok u₂ =>
        rw [hcb2] at hrc
        have hcond2 : ((some true).getD false &&
            !(processCase options.expectations (enrichedContextOf options context) b).pass)
            = true := by rw [hpb]; rfl
        rw [hcond2] at hrc
        simp only [if_true] at hrc
        cases hrc
        exact ⟨rfl, rfl⟩

/-- An expectation that passes exactly the case with id `a`. -/
def exactAOnly : EvalExpectation := fun _ c _ => .ok ⟨c.id == "a", none⟩

def caseIdA : EvalCase := ⟨"a", none, "t", .vnull, none, none, none, none, none, none, none⟩
def caseIdB : EvalCase := ⟨"b", none, "t", .vnull, none, none, none, none, none, none, none⟩
def caseIdC : EvalCase := ⟨"c", none, "t", .vnull, none, none, none, none, none, none, none⟩

def optsStop7 : EvalRunnerOptions :=
  ⟨⟨"ds", none, [caseIdA, caseIdB, caseIdC]⟩, ⟨some exactAOnly, none, none⟩,
   none, some true, none⟩

def resStop7 : EvalRunnerResult :=
  ⟨2, 1, 1,
   [⟨"a", true, .vstr "hello", none, ⟨some ⟨true, none⟩, none, none⟩⟩,
    ⟨"b", false, .vstr "hello", none, ⟨some ⟨false, none⟩, none, none⟩⟩]⟩

theorem stop_on_failure_truncates_witness :
    runEvalDataset optsStop7 ctxHello = .ok resStop7 ∧
    (resStop7.caseResults =
      [processCase optsStop7.expectations (enrichedContextOf optsStop7 ctxHello) caseIdA,
       processCase optsStop7.expectations (enrichedContextOf optsStop7 ctxHello) caseIdB] ∧
     resStop7.total = 2) :=
  ⟨rfl, (stop_on_failure_truncates optsStop7 ctxHello resStop7 rfl rfl).2
    caseIdA caseIdB caseIdC rfl rfl rfl⟩

/-! Extractor claims: behaviour of `extractTextFromResponse`. -/

/-- An object response whose `content` array holds no text-shaped element. -/
def heapContentNoText : Heap := [.harr [.vnum 1], .hobj [("content", .vref 0)]]

/-- C5, counterexample.  For the response `{content: [1]}` (a `content` array
with no `{type: "text", text}` elements) the extractor returns the JSON
serialization of the whole object, not of the `content` array: the code falls
through past the `content` check instead of applying the array rule's
stringify fallback to `content`. -/
theorem extractor_content_fallback_counterexample :
    extractTextFromResponse heapContentNoText (.vref 1) = some "\x7b\"content\":[1]\x7d" ∧
    jsonStringify heapContentNoText (.vref 0) = some "[1]" ∧
    extractTextFromResponse heapContentNoText (.vref 1) ≠
      jsonStringify heapContentNoText (.vref 0) := by
  refine ⟨rfl, rfl, ?_⟩
  decide

/-- C5, amended: for every object response with an array `content` field none
of whose elements is text-shaped, the extractor ignores the `content` field
entirely and falls through to the remaining object rules — non-nullish
`structuredContent` (string directly, else JSON-serialized), then a string
`text` field, then JSON serialization of the whole object
(`objectContentFallback`). -/
theorem extractor_content_fallthrough (h : Heap) (a : Nat) (fs : List (String × JSVal))
    (ces : List JSVal)
    (hget : h.get? a = some (.hobj fs))
    (hcontent : asArray h (getField h (.vref a) "content") = some ces)
    (hnotext : ces.filter (fun c => isTextBlock h c) = []) :
    extractTextFromResponse h (.vref a) = objectContentFallback h (.vref a) := by
  unfold extractTextFromResponse
  simp only [hget, hcontent, hnotext]
  rfl

/-- An object with a useless `content` array and a string `text` field. -/
def heapFallThrough : Heap :=
  [.harr [], .hobj [("content", .vref 0), ("text", .vstr "hi")]]

theorem extractor_content_fallthrough_witness :
    extractTextFromResponse heapFallThrough (.vref 1) =
      objectContentFallback heapFallThrough (.vref 1) ∧
    extractTextFromResponse heapFallThrough (.vref 1) = some "hi" :=
  ⟨extractor_content_fallthrough heapFallThrough 1
      [("content", .vref 0), ("text", .vstr "hi")] [] rfl rfl rfl, rfl⟩

/-- The circular object `a = {self: a}`. -/
def heapCircular : Heap := [.hobj [("self", .vref 0)]]

/-- C6, counterexample.  On the circular object `{self: <itself>}` the
extractor reaches its final `JSON.stringify(r)` with no guard and the
serialization throws (`none`): the extractor is not a total function. -/
theorem extractor_circular_counterexample :
    extractTextFromResponse heapCircular (.vref 0) = none := by decide

/-! Acyclicity and totality of the extractor.  An acyclic JavaScript value is
represented (up to sharing) by a topologically ordered heap: every reference
stored in the cell at address `a` points strictly below `a`. -/

/-- All references in `v` point below `bound`. -/
def valRefLt (v : JSVal) (bound : Nat) : Bool :=
  match v with
  | .vref a => decide (a < bound)
  | _ => true

/-- All references stored in a heap cell point below `bound`. -/
def heapObjRefsLt (o : HeapObj) (bound : Nat) : Bool :=
  match o with
  | .harr es => es.all (fun e => valRefLt e bound)
  | .hobj fs => fs.all (fun kv => valRefLt kv.2 bound)

/-- A topologically ordered (hence acyclic) heap. -/
def forwardHeap (h : Heap) : Bool :=
  (List.range h.length).all (fun a =>
    match h.get? a with
    | some o => heapObjRefsLt o a
    | none => true)

theorem valRefLt_mono (v : JSVal) (n m : Nat) (hnm : n ≤ m)
    (hv : valRefLt v n = true) : valRefLt v m = true := by
  cases v <;> simp_all [valRefLt]
  omega

theorem forwardHeap_spec (h : Heap) (hf : forwardHeap h = true) (a : Nat) (o : HeapObj)
    (hget : h.get? a = some o) : heapObjRefsLt o a = true := by
  have ha : a < h.length := by
    cases hlt : decide (a < h.length) with
    | true => exact of_decide_eq_true hlt
    | false =>
      exfalso
      have : h.length ≤ a := Nat.le_of_not_lt (of_decide_eq_false hlt)
      rw [List.get?_eq_none.mpr this] at hget
      exact Option.noConfusion hget
  have := List.all_eq_true.mp hf a (List.mem_range.mpr ha)
  rw [hget] at this
  exact this

theorem lookupField_refLt (fs : List (String × JSVal)) (n : Nat)
    (hall : fs.all (fun kv => valRefLt kv.2 n) = true) (key : String) (w : JSVal)
    (hlk : lookupField fs key = some w) : valRefLt w n = true := by
  induction fs with
  | nil => exact Option.noConfusion hlk
  | cons kv rest ih =>
    rw [List.all_cons] at hall
    have h1 := (Bool.and_eq_true_iff.mp hall).1
    have h2 := (Bool.and_eq_true_iff.mp hall).2
    unfold lookupField at hlk
    by_cases hk : kv.1 = key
    · rw [if_pos hk] at hlk
      cases hlk
      exact h1
    · rw [if_neg hk] at hlk
      exact ih h2 hlk

theorem getField_refLt (h : Heap) (hf : forwardHeap h = true) (a : Nat)
    (fs : List (String × JSVal)) (key : String)
    (hget : h.get? a = some (.hobj fs)) :
    valRefLt (getField h (.vref a) key) a = true := by
  have hall := forwardHeap_spec h hf a _ hget
  simp only [getField, hget]
  cases hlk : lookupField fs key with
  | none => rfl
  | some w =>
    simpa [Option.getD] using lookupField_refLt fs a hall key w hlk

theorem mapM_ok_of_forall {α β γ : Type} (F : α → Except γ β) :
    ∀ (xs : List α), (∀ x ∈ xs, ∃ r, F x = .ok r) → ∃ rs, xs.mapM F = .ok rs := by
  intro xs
  induction xs with
  | nil => exact fun _ => ⟨[], rfl⟩
  | cons x rest ih =>
    intro hx
    obtain ⟨r, hr⟩ := hx x (List.mem_cons_self x rest)
    obtain ⟨rs, hrs⟩ := ih (fun y hy => hx y (List.mem_cons_of_mem x hy))
    refine ⟨r :: rs, ?_⟩
    rw [List.mapM_cons, hr, hrs]
    rfl

/-- Shape of the traversal at an array cell. -/
theorem stringifyVal_ref_arr (h : Heap) (f : Nat) (visited : List Nat) (a : Nat)
    (es : List JSVal) (hnm : a ∉ visited) (hget : h.get? a = some (.harr es)) :
    stringifyVal h (f + 1) visited (.vref a) =
      (es.mapM (fun e => stringifyVal h f (a :: visited) e)).map (fun parts =>
        some ("[" ++ String.intercalate "," (parts.map (fun p => p.getD "null")) ++ "]")) := by
  rw [stringifyVal_succ]
  simp only [stringifyStep]
  rw [if_neg hnm, hget]

/-- Shape of the traversal at an object cell. -/
theorem stringifyVal_ref_obj (h : Heap) (f : Nat) (visited : List Nat) (a : Nat)
    (fs : List (String × JSVal)) (hnm : a ∉ visited) (hget : h.get? a = some (.hobj fs)) :
    stringifyVal h (f + 1) visited (.vref a) =
      (fs.mapM (fun kv => (stringifyVal h f (a :: visited) kv.2).map (fun r =>
          r.map (fun s => jsonQuote kv.1 ++ ":" ++ s)))).map (fun parts =>
        some ("\x7b" ++ String.intercalate "," (parts.filterMap id) ++ "\x7d")) := by
  rw [stringifyVal_succ]
  simp only [stringifyStep]
  rw [if_neg hnm, hget]

/-- On a topologically ordered heap the traversal never fails, provided the
fuel exceeds the address of every reference at hand and the recursion stack
lies strictly above it. -/
theorem stringifyVal_ok_of_forward (h : Heap) (hf : forwardHeap h = true) :
    ∀ (fuel : Nat) (v : JSVal) (visited : List Nat),
      (∀ a, v = .vref a → a < h.length ∧ a < fuel ∧ ∀ x ∈ visited, a < x) →
      ∃ r, stringifyVal h fuel visited v = .ok r := by
  intro fuel
  induction fuel with
  | zero =>
    intro v visited hv
    cases v with
    | vref a =>
      obtain ⟨_, hlt, _⟩ := hv a rfl
      omega
    | vnull => exact ⟨some "null", rfl⟩
    | vundefined => exact ⟨none, rfl⟩
    | vbool b => exact ⟨_, rfl⟩
    | vnum n => exact ⟨_, rfl⟩
    | vstr s => exact ⟨_, rfl⟩
  | succ f ih =>
    intro v visited hv
    cases v with
    | vnull => exact ⟨some "null", rfl⟩
    | vundefined => exact ⟨none, rfl⟩
    | vbool b => exact ⟨_, rfl⟩
    | vnum n => exact ⟨_, rfl⟩
    | vstr s => exact ⟨_, rfl⟩
    | vref a =>
      obtain ⟨haLen, haFuel, hvis⟩ := hv a rfl
      have hnm : a ∉ visited := fun hmem => absurd (hvis a hmem) (lt_irrefl a)
      cases hget : h.get? a with
      | none =>
        refine ⟨some "null", ?_⟩
        rw [stringifyVal_succ]
        simp only [stringifyStep]
        rw [if_neg hnm, hget]
      | some o =>
        have hrefs := forwardHeap_spec h hf a o hget
        cases o with
        | harr es =>
          have helem : ∀ e ∈ es, ∃ r, stringifyVal h f (a :: visited) e = .ok r := by
            intro e he
            apply ih
            intro b hb
            subst hb
            have hba : b < a := by
              have := List.all_eq_true.mp hrefs _ he
              simpa [valRefLt] using this
            refine ⟨lt_trans hba haLen, by omega, ?_⟩
            intro x hx
            rcases List.mem_cons.mp hx with hxa | hxv
            · omega
            · exact lt_trans hba (hvis x hxv)
          obtain ⟨parts, hparts⟩ := mapM_ok_of_forall _ es helem
          refine ⟨some ("[" ++ String.intercalate "," (parts.map (fun p => p.getD "null")) ++ "]"), ?_⟩
          rw [stringifyVal_ref_arr h f visited a es hnm hget, hparts]
          rfl
        | hobj fs =>
          have hfield : ∀ kv ∈ fs, ∃ r,
              (stringifyVal h f (a :: visited) kv.2).map (fun r =>
                r.map (fun s => jsonQuote kv.1 ++ ":" ++ s)) = .ok r := by
            intro kv hkv
            have hinner : ∃ r, stringifyVal h f (a :: visited) kv.2 = .ok r := by
              apply ih
              intro b hb
              have hba : b < a := by
                have := List.all_eq_true.mp hrefs _ hkv
                rw [hb] at this
                simpa [valRefLt] using this
              refine ⟨lt_trans hba haLen, by omega, ?_⟩
              intro x hx
              rcases List.mem_cons.mp hx with hxa | hxv
              · omega
              · exact lt_trans hba (hvis x hxv)
            obtain ⟨r, hr⟩ := hinner
            exact ⟨r.map (fun s => jsonQuote kv.1 ++ ":" ++ s), by rw [hr]; rfl⟩
          obtain ⟨parts, hparts⟩ := mapM_ok_of_forall _ fs hfield
          refine ⟨some ("\x7b" ++ String.intercalate "," (parts.filterMap id) ++ "\x7d"), ?_⟩
          rw [stringifyVal_ref_obj h f visited a fs hnm hget, hparts]
          rfl

/-- `JSON.stringify` cannot throw on an acyclic value. -/
theorem jsonStringify_isSome_of_forward (h : Heap) (hf : forwardHeap h = true)
    (v : JSVal) (hv : valRefLt v h.length = true) :
    (jsonStringify h v).isSome = true := by
  obtain ⟨r, hr⟩ := stringifyVal_ok_of_forward h hf (h.length + 1) v []
    (by
      intro a ha
      subst ha
      have : a < h.length := by simpa [valRefLt] using hv
      exact ⟨this, by omega, by intro x hx; exact absurd hx (List.not_mem_nil x)⟩)
  unfold jsonStringify
  rw [hr]
  cases r <;> rfl

/-- Extractor shape at an array response. -/
theorem extract_ref_arr (h : Heap) (a : Nat) (es : List JSVal)
    (hget : h.get? a = some (.harr es)) :
    extractTextFromResponse h (.vref a) =
      (if 0 < ((es.filter (fun c => isTextBlock h c)).map (fun c => getField h c "text")).length
       then some (joinVals h "\n"
         ((es.filter (fun c => isTextBlock h c)).map (fun c => getField h c "text")))
       else jsonStringify h (.vref a)) := by
  unfold extractTextFromResponse
  simp only [hget]

/-- Extractor shape at an object response whose `content` is not an array. -/
theorem extract_ref_obj_content_none (h : Heap) (a : Nat) (fs : List (String × JSVal))
    (hget : h.get? a = some (.hobj fs))
    (hca : asArray h (getField h (.vref a) "content") = none) :
    extractTextFromResponse h (.vref a) = objectContentFallback h (.vref a) := by
  unfold extractTextFromResponse
  simp only [hget, hca]

/-- Extractor shape at an object response with an array `content` field. -/
theorem extract_ref_obj_content_some (h : Heap) (a : Nat) (fs : List (String × JSVal))
    (ces : List JSVal)
    (hget : h.get? a = some (.hobj fs))
    (hca : asArray h (getField h (.vref a) "content") = some ces) :
    extractTextFromResponse h (.vref a) =
      (if 0 < ((ces.filter (fun c => isTextBlock h c)).map (fun c => getField h c "text")).length
       then some (joinVals h "\n"
         ((ces.filter (fun c => isTextBlock h c)).map (fun c => getField h c "text")))
       else objectContentFallback h (.vref a)) := by
  unfold extractTextFromResponse
  simp only [hget, hca]
  by_cases htp :
      0 < ((ces.filter (fun c => isTextBlock h c)).map (fun c => getField h c "text")).length
  · rw [if_pos htp, if_pos htp]
  · rw [if_neg htp, if_neg htp]

/-- The post-`content` fallback cannot throw on an acyclic heap. -/
theorem objectContentFallback_isSome (h : Heap) (hf : forwardHeap h = true) (a : Nat)
    (fs : List (String × JSVal)) (hget : h.get? a = some (.hobj fs)) (ha : a < h.length) :
    (objectContentFallback h (.vref a)).isSome = true := by
  have hsc := getField_refLt h hf a fs "structuredContent" hget
  unfold objectContentFallback
  by_cases hnull : (getField h (.vref a) "structuredContent").isNullish = false
  · rw [if_pos hnull]
    cases hscv : getField h (.vref a) "structuredContent" with
    | vstr s => rfl
    | vnull => exact jsonStringify_isSome_of_forward h hf _ rfl
    | vundefined => exact jsonStringify_isSome_of_forward h hf _ rfl
    | vbool b => exact jsonStringify_isSome_of_forward h hf _ rfl
    | vnum n => exact jsonStringify_isSome_of_forward h hf _ rfl
    | vref b =>
      rw [hscv] at hsc
      exact jsonStringify_isSome_of_forward h hf _ (valRefLt_mono _ _ _ (le_of_lt ha) hsc)
  · rw [if_neg hnull]
    cases hgt : getField h (.vref a) "text" with
    | vstr s => rfl
    | vnull => exact jsonStringify_isSome_of_forward h hf _ (by simpa [valRefLt] using ha)
    | vundefined => exact jsonStringify_isSome_of_forward h hf _ (by simpa [valRefLt] using ha)
    | vbool b => exact jsonStringify_isSome_of_forward h hf _ (by simpa [valRefLt] using ha)
    | vnum n => exact jsonStringify_isSome_of_forward h hf _ (by simpa [valRefLt] using ha)
    | vref b => exact jsonStringify_isSome_of_forward h hf _ (by simpa [valRefLt] using ha)

/-- C6, amended: the extractor returns a string and never throws on every
input whose object graph is acyclic (equivalently, JSON-serializable —
modelled by a topologically ordered heap); on a circular object its unguarded
`JSON.stringify` throws, so it is total only over non-circular inputs. -/
theorem extractor_total_on_acyclic (h : Heap) (v : JSVal)
    (hf : forwardHeap h = true) (hv : valRefLt v h.length = true) :
    (extractTextFromResponse h v).isSome = true := by
  cases v with
  | vnull => rfl
  | vundefined => rfl
  | vstr s => rfl
  | vbool b => rfl
  | vnum n => rfl
  | vref a =>
    have ha : a < h.length := by simpa [valRefLt] using hv
    cases hget : h.get? a with
    | none =>
      exfalso
      have := List.get?_eq_none.mp hget
      omega
    | some o =>
      cases o with
      | harr es =>
        rw [extract_ref_arr h a es hget]
        by_cases htp :
            0 < ((es.filter (fun c => isTextBlock h c)).map (fun c => getField h c "text")).length
        · rw [if_pos htp]
          rfl
        · rw [if_neg htp]
          exact jsonStringify_isSome_of_forward h hf _ (by simpa [valRefLt] using ha)
      | hobj fs =>
        cases hca : asArray h (getField h (.vref a) "content") with
        | none =>
          rw [extract_ref_obj_content_none h a fs hget hca]
          exact objectContentFallback_isSome h hf a fs hget ha
        | some ces =>
          rw [extract_ref_obj_content_some h a fs ces hget hca]
          by_cases htp :
              0 < ((ces.filter (fun c => isTextBlock h c)).map (fun c => getField h c "text")).length
          · rw [if_pos htp]
            rfl
          · rw [if_neg htp]
            exact objectContentFallback_isSome h hf a fs hget ha

/-- A small acyclic response: `{content: [{type: "text", text: "hi"}]}`. -/
def heapAcyclic : Heap :=
  [.hobj [("type", .vstr "text"), ("text", .vstr "hi")],
   .harr [.vref 0],
   .hobj [("content", .vref 1)]]

theorem extractor_total_on_acyclic_witness :
    forwardHeap heapAcyclic = true ∧
    valRefLt (.vref 2) heapAcyclic.length = true ∧
    (extractTextFromResponse heapAcyclic (.vref 2)).isSome = true :=
  ⟨by decide, by decide,
   extractor_total_on_acyclic heapAcyclic (.vref 2) (by decide) (by decide)⟩

/-! The `expectedError` validator gap and the regex expectation. -/

/-- The serialized case `{id, toolName, args: {}, expectedError: true}`. -/
def heapExpectedError : Heap :=
  [.hobj [],
   .hobj [("id", .vstr "search-missing-query"), ("toolName", .vstr "search"),
          ("args", .vref 0), ("expectedError", .vbool true)]]

/-- A context whose collaborators are never consulted by these expectations. -/
def ctxDummy : EvalExpectationContext := ⟨⟨fun _ _ => .error (.err "no tool")⟩, none⟩

/-- C4: the canonical validator does not preserve `expectedError`.
`validateEvalCase` accepts the case `{..., expectedError: true}` but — since
`EvalCaseSchema` does not declare the field and zod strips unknown keys — the
parsed case carries no `expectedError`, so on a non-error response the error
expectation skips with `pass = true`; had the field been preserved (as the
claim and the spec's data model require), the same response would fail with
the `isError` diagnostic, as the last conjunct shows. -/
theorem expectedError_stripped_by_validator :
    validateEvalCase heapExpectedError (.vref 1) =
      some ⟨"search-missing-query", none, "search", .vref 0, none, none, none, none, none,
        none, none⟩ ∧
    (validateEvalCase heapExpectedError (.vref 1)).map (fun c => c.expectedError) =
      some none ∧
    createErrorExpectation heapExpectedError ctxDummy
        ⟨"search-missing-query", none, "search", .vref 0, none, none, none, none, none,
         none, none⟩ (.vstr "ok") =
      .ok ⟨true, some "No error expectation defined, skipping"⟩ ∧
    createErrorExpectation heapExpectedError ctxDummy
        ⟨"search-missing-query", none, "search", .vref 0, none, none, none, none, none,
         none, some (.boolDir true)⟩ (.vstr "ok") =
      .ok ⟨false, some "Expected tool to return isError: true, but it returned success"⟩ := by
  refine ⟨by decide, by decide, rfl, rfl⟩

theorem findFailedPatterns_eq_nil_iff (eng : RegexEngine) (text : String)
    (patterns : List String) :
    findFailedPatterns eng text patterns = [] ↔
    ∀ p ∈ patterns, ∃ t, eng.compile p "m" = .ok t ∧ t text = true := by
  unfold findFailedPatterns
  rw [List.filter_eq_nil_iff]
  constructor
  · intro hall p hp
    have hnp := hall p hp
    cases hc : eng.compile p "m" with
    | error msg =>
      exfalso
      apply hnp
      simp only [hc]
    | ok t =>
      refine ⟨t, rfl, ?_⟩
      by_contra htt
      apply hnp
      simp only [hc]
      simpa using htt
  · intro hall p hp
    obtain ⟨t, hct, htt⟩ := hall p hp
    simp only [hct]
    simp [htt]

theorem mem_findFailedPatterns_of_error (eng : RegexEngine) (text : String)
    (patterns : List String) (p : String) (hp : p ∈ patterns) (msg : String)
    (hc : eng.compile p "m" = .error msg) :
    p ∈ findFailedPatterns eng text patterns := by
  unfold findFailedPatterns
  apply List.mem_filter.mpr
  refine ⟨hp, ?_⟩
  simp only [hc]

/-- C8: with patterns declared, the regex expectation never throws; it passes
exactly when every pattern both compiles under the multiline flag `m` and
matches the extracted text; and an uncompilable pattern is counted as a
failed pattern (forcing `pass = false`) instead of raising. -/
theorem regex_expectation_spec (eng : RegexEngine) (h : Heap)
    (ctx : EvalExpectationContext) (c : EvalCase) (resp : JSVal)
    (pats : StrOrList) (text : String)
    (hre : c.expectedRegex = some pats)
    (htext : extractTextFromResponse h resp = some text) :
    ∃ r, createRegexExpectation eng h ctx c resp = .ok r ∧
      (r.pass = true ↔ ∀ p ∈ pats.toListJS, ∃ t, eng.compile p "m" = .ok t ∧ t text = true) ∧
      ∀ p ∈ pats.toListJS, ∀ msg, eng.compile p "m" = .error msg →
        p ∈ findFailedPatterns eng text pats.toListJS ∧ r.pass = false := by
  by_cases hfail : (findFailedPatterns eng text pats.toListJS).length = 0
  · refine ⟨⟨true, some (if pats.toListJS.length = 1 then "Text matches expected pattern"
      else "Text matches all " ++ toString pats.toListJS.length ++ " expected patterns")⟩,
      ?_, ?_, ?_⟩
    · unfold createRegexExpectation
      simp only [hre, htext]
      rw [if_pos hfail]
    · simp only [true_iff]
      exact (findFailedPatterns_eq_nil_iff eng text pats.toListJS).mp
        (List.length_eq_zero.mp hfail)
    · intro p hp msg hc
      exfalso
      have hmem := mem_findFailedPatterns_of_error eng text pats.toListJS p hp msg hc
      rw [List.length_eq_zero.mp hfail] at hmem
      exact List.not_mem_nil p hmem
  · refine ⟨⟨false, some ("Failed to match " ++
      toString (findFailedPatterns eng text pats.toListJS).length ++ " pattern(s):\n" ++
      String.intercalate "\n" ((findFailedPatterns eng text pats.toListJS).map (fun pattern =>
        match eng.compile pattern "" with
        | .ok _ => "  - Pattern: /" ++ pattern ++ "/"
        | .error msg => "  - Invalid pattern: /" ++ pattern ++ "/ (" ++ msg ++ ")")) ++
      "\n\nResponse text:\n" ++ textPreview text)⟩, ?_, ?_, ?_⟩
    · unfold createRegexExpectation
      simp only [hre, htext]
      rw [if_neg hfail]
    · simp only [Bool.false_eq_true, false_iff]
      intro hall
      exact hfail (List.length_eq_zero.mpr
        ((findFailedPatterns_eq_nil_iff eng text pats.toListJS).mpr hall))
    · intro p hp msg hc
      exact ⟨mem_findFailedPatterns_of_error eng text pats.toListJS p hp msg hc, rfl⟩

/-- A concrete engine: `[` fails to compile, any other pattern matches the
texts it prefixes. -/
def engPrefixes : RegexEngine :=
  ⟨fun p _ => if p = "[" then .error "Invalid regular expression" else
    .ok (fun s => p.isPrefixOf s)⟩

def caseRegexW : EvalCase :=
  ⟨"r1", none, "t", .vnull, none, none, none, none, some (.many ["ok", "["]), none, none⟩

theorem regex_expectation_spec_witness :
    caseRegexW.expectedRegex = some (.many ["ok", "["]) ∧
    extractTextFromResponse [] (.vstr "ok text") = some "ok text" ∧
    (∃ r, createRegexExpectation engPrefixes [] ctxDummy caseRegexW (.vstr "ok text") = .ok r ∧
      (r.pass = true ↔ ∀ p ∈ (StrOrList.many ["ok", "["]).toListJS,
        ∃ t, engPrefixes.compile p "m" = .ok t ∧ t "ok text" = true) ∧
      ∀ p ∈ (StrOrList.many ["ok", "["]).toListJS, ∀ msg,
        engPrefixes.compile p "m" = .error msg →
        p ∈ findFailedPatterns engPrefixes "ok text" (StrOrList.many ["ok", "["]).toListJS ∧
        r.pass = false) :=
  ⟨rfl, rfl, regex_expectation_spec engPrefixes [] ctxDummy caseRegexW (.vstr "ok text")
    (.many ["ok", "["]) "ok text" rfl rfl⟩
